import Mathlib

/-!
Verification of the `BadRequest` standard error message module
(`tonic-types/src/richer_error/std_messages/bad_request.rs`).

The typed detail model, its builder operations and the conversions to and
from the wire-schema structs are embedded directly from the source file.
The wire-schema structs (`pb::BadRequest`, `pb::bad_request::FieldViolation`,
`pb::LocalizedMessage`) and the binary serialization provided by the
external `prost` crate are not part of the source file; they are modelled
from the specification of the wire format (base-128 varints, tag bytes of
the form fieldNumber * 8 + wireType, length-delimited submessages, unknown
fields skipped, defaulted fields omitted on encode).

Strings and byte buffers are modelled as lists of naturals, one element
per octet.
-/

namespace TonicBadRequest

/-- Modelled from the spec: base-128 varint encoding used by the external
binary serialization format, written with an explicit fuel argument so that
it computes by kernel reduction. The fuel is always at least the value
being encoded, which suffices because the value shrinks by a factor of 128
every step. -/
def varintEncodeF : Nat → Nat → List Nat
  | 0, n => [n]
  | fuel + 1, n =>
    if n < 128 then [n] else (n % 128 + 128) :: varintEncodeF fuel (n / 128)

/-- Modelled from the spec: base-128 varint encoding of a natural number. -/
def varintEncode (n : Nat) : List Nat :=
  varintEncodeF n n

/-- Modelled from the spec: base-128 varint decoding. Returns the decoded
value and the remaining bytes, or `none` when the buffer ends inside a
varint. -/
def varintDecode : List Nat → Option (Nat × List Nat)
  | [] => none
  | b :: rest =>
    if b < 128 then some (b, rest)
    else
      match varintDecode rest with
      | none => none
      | some (v, rest2) => some ((b - 128) + 128 * v, rest2)

theorem varintEncodeF_congr (n : Nat) :
    ∀ f1 f2 : Nat, n ≤ f1 → n ≤ f2 → varintEncodeF f1 n = varintEncodeF f2 n := by
  induction n using Nat.strong_induction_on with
  | _ n ih =>
    intro f1 f2 h1 h2
    match f1, f2 with
    | 0, 0 => rfl
    | 0, g2 + 1 =>
      interval_cases n
      simp [varintEncodeF]
    | g1 + 1, 0 =>
      interval_cases n
      simp [varintEncodeF]
    | g1 + 1, g2 + 1 =>
      by_cases hn : n < 128
      · simp [varintEncodeF, hn]
      · have hpos : 0 < n := by omega
        have hdiv : n / 128 < n := Nat.div_lt_self hpos (by omega)
        simp only [varintEncodeF, hn, if_false]
        have hg1 : n / 128 ≤ g1 := by omega
        have hg2 : n / 128 ≤ g2 := by omega
        rw [ih (n / 128) hdiv g1 g2 hg1 hg2]

/-- Unfolding equation for `varintEncode` that hides the fuel. -/
theorem varintEncode_eq (n : Nat) :
    varintEncode n =
      if n < 128 then [n] else (n % 128 + 128) :: varintEncode (n / 128) := by
  by_cases hn : n < 128
  · match n with
    | 0 => simp [varintEncode, varintEncodeF]
    | m + 1 => simp [varintEncode, varintEncodeF, hn]
  · match n with
    | 0 => omega
    | m + 1 =>
      have hdiv : (m + 1) / 128 < m + 1 := Nat.div_lt_self (by omega) (by omega)
      simp only [varintEncode, varintEncodeF, hn, if_false]
      have h1 : (m + 1) / 128 ≤ m := by omega
      rw [varintEncodeF_congr ((m + 1) / 128) m ((m + 1) / 128) h1 (Nat.le_refl _)]

theorem varintEncode_ne_nil (n : Nat) : varintEncode n ≠ [] := by
  rw [varintEncode_eq]
  by_cases hn : n < 128 <;> simp [hn]

/-- Round trip for varints: decoding an encoded value in front of any
remaining bytes recovers the value and the remainder. -/
theorem varint_roundtrip (n : Nat) (rest : List Nat) :
    varintDecode (varintEncode n ++ rest) = some (n, rest) := by
  induction n using Nat.strong_induction_on generalizing rest with
  | _ n ih =>
    rw [varintEncode_eq]
    by_cases hn : n < 128
    · simp [hn, varintDecode]
    · have hdiv : n / 128 < n := Nat.div_lt_self (by omega) (by omega)
      simp only [hn, if_false, List.cons_append, varintDecode]
      have hb : ¬ (n % 128 + 128 < 128) := by omega
      rw [if_neg hb, ih (n / 128) hdiv rest]
      simp only [Option.some.injEq, Prod.mk.injEq, and_true]
      omega

theorem varintDecode_length {bs : List Nat} {v : Nat} {rest : List Nat}
    (h : varintDecode bs = some (v, rest)) : rest.length < bs.length := by
  induction bs generalizing v rest with
  | nil => simp [varintDecode] at h
  | cons b tl ih =>
    simp only [varintDecode] at h
    by_cases hb : b < 128
    · simp only [hb, if_true] at h
      obtain ⟨h1, h2⟩ := Prod.mk.injEq .. ▸ Option.some.injEq .. ▸ h
      subst h2
      simp
    · simp only [hb, if_false] at h
      match hrec : varintDecode tl with
      | none => rw [hrec] at h; exact absurd h (by simp)
      | some (v2, rest2) =>
        rw [hrec] at h
        simp only [Option.some.injEq, Prod.mk.injEq] at h
        obtain ⟨h1, h2⟩ := h
        subst h2
        have := ih hrec
        simp only [List.length_cons]
        omega

/-- Modelled from the spec: the value carried by one wire-format field,
classified by wire type (0 varint, 1 eight fixed bytes, 2 length-delimited
chunk, 5 four fixed bytes). -/
inductive RawVal where
  | vint (n : Nat)
  | fix64 (bs : List Nat)
  | chunk (bs : List Nat)
  | fix32 (bs : List Nat)
deriving DecidableEq

/-- Modelled from the spec: one wire-format field: a field number and its
raw value. -/
structure RawField where
  num : Nat
  val : RawVal
deriving DecidableEq

/-- Modelled from the spec: parse a byte buffer into its sequence of raw
wire-format fields, with explicit fuel (one unit per field, which consumes
at least one byte, so fuel equal to the buffer length always suffices).
A key is a varint holding fieldNumber * 8 + wireType; field number zero and
wire types other than 0, 1, 2 and 5 are rejected, and a buffer that ends
inside a field is rejected. -/
def rawParseF : Nat → List Nat → Except String (List RawField)
  | _, [] => .ok []
  | 0, _ :: _ => .error "recursion limit reached"
  | fuel + 1, b :: tl =>
    match varintDecode (b :: tl) with
    | none => .error "invalid varint"
    | some (key, r1) =>
      if key / 8 = 0 then .error "invalid tag"
      else if key % 8 = 0 then
        match varintDecode r1 with
        | none => .error "invalid varint"
        | some (v, r2) => (rawParseF fuel r2).map (fun l => ⟨key / 8, .vint v⟩ :: l)
      else if key % 8 = 1 then
        if 8 ≤ r1.length then
          (rawParseF fuel (r1.drop 8)).map (fun l => ⟨key / 8, .fix64 (r1.take 8)⟩ :: l)
        else .error "buffer underflow"
      else if key % 8 = 2 then
        match varintDecode r1 with
        | none => .error "invalid varint"
        | some (len, r2) =>
          if len ≤ r2.length then
            (rawParseF fuel (r2.drop len)).map (fun l => ⟨key / 8, .chunk (r2.take len)⟩ :: l)
          else .error "buffer underflow"
      else if key % 8 = 5 then
        if 4 ≤ r1.length then
          (rawParseF fuel (r1.drop 4)).map (fun l => ⟨key / 8, .fix32 (r1.take 4)⟩ :: l)
        else .error "buffer underflow"
      else .error "invalid wire type"

/-- Modelled from the spec: parse a byte buffer into its raw wire-format
fields. -/
def rawParse (bs : List Nat) : Except String (List RawField) :=
  rawParseF bs.length bs

theorem rawParseF_nil (fuel : Nat) : rawParseF fuel [] = .ok [] := by
  cases fuel <;> rfl

theorem rawParseF_congr (k : Nat) :
    ∀ bs : List Nat, bs.length ≤ k → ∀ f1 f2 : Nat, bs.length ≤ f1 → bs.length ≤ f2 →
      rawParseF f1 bs = rawParseF f2 bs := by
  induction k using Nat.strong_induction_on with
  | _ k ih =>
    intro bs hk f1 f2 h1 h2
    match bs with
    | [] => rw [rawParseF_nil, rawParseF_nil]
    | b :: tl =>
      simp only [List.length_cons] at hk h1 h2
      match f1, f2 with
      | 0, _ => omega
      | _ + 1, 0 => omega
      | g1 + 1, g2 + 1 =>
        simp only [rawParseF]
        match hv : varintDecode (b :: tl) with
        | none => rfl
        | some (key, r1) =>
          have hr1 : r1.length < tl.length + 1 := by
            have := varintDecode_length hv
            simpa using this
          have hrec : ∀ a : List Nat, a.length ≤ tl.length →
              rawParseF g1 a = rawParseF g2 a := by
            intro a ha
            exact ih (k - 1) (by omega) a (by omega) g1 g2 (by omega) (by omega)
          by_cases hz : key / 8 = 0
          · simp [hz]
          · simp only [hz, if_false]
            by_cases hw0 : key % 8 = 0
            · simp only [hw0, if_true]
              match hv2 : varintDecode r1 with
              | none => rfl
              | some (v, r2) =>
                have hr2 : r2.length < r1.length := varintDecode_length hv2
                simp [hrec r2 (by omega)]
            · simp only [hw0, if_false]
              by_cases hw1 : key % 8 = 1
              · simp only [hw1, if_true]
                by_cases hlen : 8 ≤ r1.length
                · have hd : (r1.drop 8).length ≤ tl.length := by
                    simp only [List.length_drop]
                    omega
                  simp [hlen, hrec (r1.drop 8) hd]
                · simp [hlen]
              · simp only [hw1, if_false]
                by_cases hw2 : key % 8 = 2
                · simp only [hw2, if_true]
                  match hv2 : varintDecode r1 with
                  | none => rfl
                  | some (len, r2) =>
                    have hr2 : r2.length < r1.length := varintDecode_length hv2
                    by_cases hlen : len ≤ r2.length
                    · have hd : (r2.drop len).length ≤ tl.length := by
                        simp only [List.length_drop]
                        omega
                      simp [hlen, hrec (r2.drop len) hd]
                    · simp [hlen]
                · simp only [hw2, if_false]
                  by_cases hw5 : key % 8 = 5
                  · simp only [hw5, if_true]
                    by_cases hlen : 4 ≤ r1.length
                    · have hd : (r1.drop 4).length ≤ tl.length := by
                        simp only [List.length_drop]
                        omega
                      simp [hlen, hrec (r1.drop 4) hd]
                    · simp [hlen]
                  · simp [hw5]

theorem rawParseF_eq_rawParse {fuel : Nat} {bs : List Nat} (h : bs.length ≤ fuel) :
    rawParseF fuel bs = rawParse bs :=
  rawParseF_congr bs.length bs (Nat.le_refl _) fuel bs.length h (Nat.le_refl _)

theorem rawParse_nil : rawParse [] = .ok [] := rfl

/-- Modelled from the spec: encoding of one length-delimited field
(wire type 2): the key varint, the payload length varint, then the payload
bytes. -/
def encChunk (num : Nat) (payload : List Nat) : List Nat :=
  varintEncode (num * 8 + 2) ++ varintEncode payload.length ++ payload

/-- Parsing a buffer that starts with an encoded length-delimited field
yields that field followed by whatever the rest of the buffer parses to. -/
theorem rawParse_encChunk (num : Nat) (p rest : List Nat) (hnum : num ≠ 0) :
    rawParse (encChunk num p ++ rest) =
      (rawParse rest).map (fun l => ⟨num, .chunk p⟩ :: l) := by
  have hL : encChunk num p ++ rest =
      varintEncode (num * 8 + 2) ++ (varintEncode p.length ++ (p ++ rest)) := by
    simp [encChunk]
  match hE : varintEncode (num * 8 + 2) with
  | [] => exact absurd hE (varintEncode_ne_nil _)
  | c :: cs =>
    rw [hL, hE]
    simp only [List.cons_append, rawParse, List.length_cons]
    rw [rawParseF]
    have hv1 : varintDecode (c :: (cs ++ (varintEncode p.length ++ (p ++ rest)))) =
        some (num * 8 + 2, varintEncode p.length ++ (p ++ rest)) := by
      have := varint_roundtrip (num * 8 + 2) (varintEncode p.length ++ (p ++ rest))
      rw [hE] at this
      simpa using this
    rw [hv1]
    have hdiv : (num * 8 + 2) / 8 = num := by omega
    have hmod : (num * 8 + 2) % 8 = 2 := by omega
    simp only [hdiv, hmod]
    rw [if_neg hnum]
    norm_num
    rw [varint_roundtrip p.length (p ++ rest)]
    simp only [List.length_append, Nat.le_add_right, if_true]
    rw [List.take_left, List.drop_left]
    congr 1
    apply rawParseF_eq_rawParse
    omega

/-- Modelled from the spec: the wire-schema struct `pb::LocalizedMessage`
(locale = field 1, message = field 2), the submessage type referenced by a
field violation. -/
structure PbLocalizedMessage where
  locale : List Nat
  message : List Nat
deriving DecidableEq

/-- Modelled from the spec: the wire-schema struct
`pb::bad_request::FieldViolation` (field = 1, description = 2, reason = 3,
localized_message = 4, the latter optional). -/
structure PbFieldViolation where
  field : List Nat
  description : List Nat
  reason : List Nat
  localized_message : Option PbLocalizedMessage
deriving DecidableEq

/-- Modelled from the spec: the wire-schema struct `pb::BadRequest`
(field_violations = repeated field 1). -/
structure PbBadRequest where
  field_violations : List PbFieldViolation
deriving DecidableEq

/-- Modelled from the spec: the binary encoding of `pb::LocalizedMessage`;
string fields holding their default (empty) value are omitted. -/
def encodeLM (m : PbLocalizedMessage) : List Nat :=
  (if m.locale = [] then [] else encChunk 1 m.locale) ++
  (if m.message = [] then [] else encChunk 2 m.message)

/-- Modelled from the spec: the binary encoding of
`pb::bad_request::FieldViolation`; empty string fields are omitted and an
absent localized message contributes nothing. -/
def encodeFV (v : PbFieldViolation) : List Nat :=
  (if v.field = [] then [] else encChunk 1 v.field) ++
  (if v.description = [] then [] else encChunk 2 v.description) ++
  (if v.reason = [] then [] else encChunk 3 v.reason) ++
  (match v.localized_message with
   | none => []
   | some lm => encChunk 4 (encodeLM lm))

/-- Modelled from the spec: the elements of the repeated field 1 are
emitted in order, each as one length-delimited submessage. -/
def encodeFVList : List PbFieldViolation → List Nat
  | [] => []
  | v :: tl => encChunk 1 (encodeFV v) ++ encodeFVList tl

/-- Modelled from the spec: `Message::encode_to_vec` for the BadRequest
wire message. -/
def encodeBR (m : PbBadRequest) : List Nat :=
  encodeFVList m.field_violations

/-- Modelled from the spec: message merge for `pb::LocalizedMessage` over
its parsed raw fields: a later occurrence of a string field replaces an
earlier one, unknown fields are ignored, and a known field with the wrong
wire type is a decode error. -/
def foldLM : PbLocalizedMessage → List RawField → Except String PbLocalizedMessage
  | acc, [] => .ok acc
  | acc, f :: tl =>
    if f.num = 1 then
      match f.val with
      | .chunk s => foldLM { acc with locale := s } tl
      | _ => .error "invalid wire type"
    else if f.num = 2 then
      match f.val with
      | .chunk s => foldLM { acc with message := s } tl
      | _ => .error "invalid wire type"
    else foldLM acc tl

/-- Modelled from the spec: message merge for
`pb::bad_request::FieldViolation`. A repeated occurrence of the optional
submessage field merges into the already-present submessage. -/
def foldFV : PbFieldViolation → List RawField → Except String PbFieldViolation
  | acc, [] => .ok acc
  | acc, f :: tl =>
    if f.num = 1 then
      match f.val with
      | .chunk s => foldFV { acc with field := s } tl
      | _ => .error "invalid wire type"
    else if f.num = 2 then
      match f.val with
      | .chunk s => foldFV { acc with description := s } tl
      | _ => .error "invalid wire type"
    else if f.num = 3 then
      match f.val with
      | .chunk s => foldFV { acc with reason := s } tl
      | _ => .error "invalid wire type"
    else if f.num = 4 then
      match f.val with
      | .chunk s =>
        match rawParse s with
        | .error e => .error e
        | .ok raws =>
          match foldLM (acc.localized_message.getD ⟨[], []⟩) raws with
          | .error e => .error e
          | .ok lm => foldFV { acc with localized_message := some lm } tl
      | _ => .error "invalid wire type"
    else foldFV acc tl

/-- Modelled from the spec: message merge for `pb::BadRequest`: every
occurrence of field 1 decodes one submessage and appends it to the
repeated field, in order. -/
def foldBR : PbBadRequest → List RawField → Except String PbBadRequest
  | acc, [] => .ok acc
  | acc, f :: tl =>
    if f.num = 1 then
      match f.val with
      | .chunk s =>
        match rawParse s with
        | .error e => .error e
        | .ok raws =>
          match foldFV ⟨[], [], [], none⟩ raws with
          | .error e => .error e
          | .ok v => foldBR ⟨acc.field_violations ++ [v]⟩ tl
      | _ => .error "invalid wire type"
    else foldBR acc tl

/-- Modelled from the spec: `pb::BadRequest::decode` on a byte buffer. -/
def decodeBR (bs : List Nat) : Except String PbBadRequest :=
  match rawParse bs with
  | .error e => .error e
  | .ok raws => foldBR ⟨[]⟩ raws

/-- Concatenation of a list of length-delimited field encodings. -/
def concatChunks : List (Nat × List Nat) → List Nat
  | [] => []
  | x :: tl => encChunk x.1 x.2 ++ concatChunks tl

theorem concatChunks_append (a b : List (Nat × List Nat)) :
    concatChunks (a ++ b) = concatChunks a ++ concatChunks b := by
  induction a with
  | nil => simp [concatChunks]
  | cons x tl ih => simp [concatChunks, ih]

theorem rawParse_concatChunks_append (ps : List (Nat × List Nat)) (rest : List Nat)
    (h : ∀ x ∈ ps, x.1 ≠ 0) :
    rawParse (concatChunks ps ++ rest) =
      (rawParse rest).map
        (fun l => (ps.map fun x => (⟨x.1, .chunk x.2⟩ : RawField)) ++ l) := by
  induction ps with
  | nil =>
    cases hp : rawParse rest <;> simp [concatChunks, Except.map, hp]
  | cons x tl ih =>
    have hx : x.1 ≠ 0 := h x (by simp)
    have htl : ∀ y ∈ tl, y.1 ≠ 0 := fun y hy => h y (by simp [hy])
    simp only [concatChunks, List.append_assoc]
    rw [rawParse_encChunk x.1 x.2 _ hx, ih htl]
    cases hp : rawParse rest <;> simp [Except.map]

theorem rawParse_concatChunks (ps : List (Nat × List Nat)) (h : ∀ x ∈ ps, x.1 ≠ 0) :
    rawParse (concatChunks ps) =
      .ok (ps.map fun x => (⟨x.1, .chunk x.2⟩ : RawField)) := by
  have := rawParse_concatChunks_append ps [] h
  simpa [rawParse_nil, Except.map] using this

/-- The field encodings making up `encodeLM`, as (number, payload) pairs. -/
def lmPairs (m : PbLocalizedMessage) : List (Nat × List Nat) :=
  (if m.locale = [] then [] else [(1, m.locale)]) ++
  (if m.message = [] then [] else [(2, m.message)])

theorem encodeLM_eq_concat (m : PbLocalizedMessage) :
    encodeLM m = concatChunks (lmPairs m) := by
  simp only [encodeLM, lmPairs]
  split_ifs <;> simp [concatChunks_append, concatChunks]

theorem lmPairs_num_ne (m : PbLocalizedMessage) : ∀ x ∈ lmPairs m, x.1 ≠ 0 := by
  intro x hx
  simp only [lmPairs, List.mem_append] at hx
  rcases hx with h | h <;> (split at h <;> simp_all)

/-- The field encodings making up `encodeFV`, as (number, payload) pairs. -/
def fvPairs (v : PbFieldViolation) : List (Nat × List Nat) :=
  (if v.field = [] then [] else [(1, v.field)]) ++
  (if v.description = [] then [] else [(2, v.description)]) ++
  (if v.reason = [] then [] else [(3, v.reason)]) ++
  (match v.localized_message with
   | none => []
   | some lm => [(4, encodeLM lm)])

theorem encodeFV_eq_concat (v : PbFieldViolation) :
    encodeFV v = concatChunks (fvPairs v) := by
  obtain ⟨fl, de, re, lmo⟩ := v
  simp only [encodeFV, fvPairs]
  rcases lmo with _ | lm <;>
    split_ifs <;> simp [concatChunks_append, concatChunks]

theorem fvPairs_num_ne (v : PbFieldViolation) : ∀ x ∈ fvPairs v, x.1 ≠ 0 := by
  intro x hx
  simp only [fvPairs, List.mem_append] at hx
  rcases hx with ((h | h) | h) | h <;> (split at h <;> simp_all)

theorem foldLM_append (l1 l2 : List RawField) (acc : PbLocalizedMessage) :
    foldLM acc (l1 ++ l2) =
      Except.bind (foldLM acc l1) (fun a => foldLM a l2) := by
  induction l1 generalizing acc with
  | nil => rfl
  | cons f tl ih =>
    simp only [List.cons_append, foldLM]
    repeat' split
    all_goals first | rfl | exact ih _

theorem foldFV_append (l1 l2 : List RawField) (acc : PbFieldViolation) :
    foldFV acc (l1 ++ l2) =
      Except.bind (foldFV acc l1) (fun a => foldFV a l2) := by
  induction l1 generalizing acc with
  | nil => rfl
  | cons f tl ih =>
    simp only [List.cons_append, foldFV]
    repeat' split
    all_goals first | rfl | exact ih _

/-- Round trip for the localization submessage. -/
theorem lm_roundtrip (lm : PbLocalizedMessage) :
    ∃ raws, rawParse (encodeLM lm) = .ok raws ∧ foldLM ⟨[], []⟩ raws = .ok lm := by
  refine ⟨(lmPairs lm).map (fun x => ⟨x.1, .chunk x.2⟩), ?_, ?_⟩
  · rw [encodeLM_eq_concat]
    exact rawParse_concatChunks _ (lmPairs_num_ne lm)
  · obtain ⟨lo, me⟩ := lm
    simp only [lmPairs, List.map_append]
    by_cases h1 : lo = [] <;> by_cases h2 : me = [] <;>
      simp [h1, h2, foldLM_append, foldLM, Except.bind]

/-- Round trip for one field violation submessage. -/
theorem fv_roundtrip (v : PbFieldViolation) :
    ∃ raws, rawParse (encodeFV v) = .ok raws ∧
      foldFV ⟨[], [], [], none⟩ raws = .ok v := by
  refine ⟨(fvPairs v).map (fun x => ⟨x.1, .chunk x.2⟩), ?_, ?_⟩
  · rw [encodeFV_eq_concat]
    exact rawParse_concatChunks _ (fvPairs_num_ne v)
  · obtain ⟨fl, de, re, lmo⟩ := v
    simp only [fvPairs, List.map_append]
    rcases lmo with _ | lm
    · by_cases h1 : fl = [] <;> by_cases h2 : de = [] <;> by_cases h3 : re = [] <;>
        simp [h1, h2, h3, foldFV_append, foldFV, Except.bind]
    · obtain ⟨raws, hp, hf⟩ := lm_roundtrip lm
      by_cases h1 : fl = [] <;> by_cases h2 : de = [] <;> by_cases h3 : re = [] <;>
        simp [h1, h2, h3, foldFV_append, foldFV, Except.bind, hp, hf]

theorem rawParse_encodeFVList (vs : List PbFieldViolation) (rest : List Nat) :
    rawParse (encodeFVList vs ++ rest) =
      (rawParse rest).map
        (fun l => (vs.map fun v => (⟨1, .chunk (encodeFV v)⟩ : RawField)) ++ l) := by
  induction vs with
  | nil => cases hp : rawParse rest <;> simp [encodeFVList, Except.map, hp]
  | cons v tl ih =>
    simp only [encodeFVList, List.append_assoc]
    rw [rawParse_encChunk 1 (encodeFV v) _ (by omega), ih]
    cases hp : rawParse rest <;> simp [Except.map]

theorem foldBR_mapped (vs : List PbFieldViolation) (acc : PbBadRequest) :
    foldBR acc (vs.map fun v => (⟨1, .chunk (encodeFV v)⟩ : RawField)) =
      .ok ⟨acc.field_violations ++ vs⟩ := by
  induction vs generalizing acc with
  | nil => simp [foldBR]
  | cons v tl ih =>
    obtain ⟨raws, hp, hf⟩ := fv_roundtrip v
    simp only [List.map_cons, foldBR, if_pos rfl, hp, hf]
    rw [ih ⟨acc.field_violations ++ [v]⟩]
    simp

/-- Decoding an encoded BadRequest wire message recovers it exactly. -/
theorem decode_encodeBR (m : PbBadRequest) : decodeBR (encodeBR m) = .ok m := by
  obtain ⟨vs⟩ := m
  have hp : rawParse (encodeBR ⟨vs⟩) =
      .ok (vs.map fun v => (⟨1, .chunk (encodeFV v)⟩ : RawField)) := by
    have := rawParse_encodeFVList vs []
    simpa [encodeBR, rawParse_nil, Except.map] using this
  simp [decodeBR, hp, foldBR_mapped vs ⟨[]⟩]

/-- Boolean success test on a decode result. -/
def exceptIsOk {ε α : Type} : Except ε α → Bool
  | .ok _ => true
  | .error _ => false

/-- Modelled from the spec: the typed `LocalizedMessage` detail struct
referenced by a field violation; its own module is external to the
analyzed file. It carries a locale and a translated message. -/
structure LocalizedMessage where
  locale : List Nat
  message : List Nat
deriving DecidableEq

/-- The typed `FieldViolation` struct: path to the bad field, description,
machine-readable reason, and an optional localized message. -/
structure FieldViolation where
  field : List Nat
  description : List Nat
  reason : List Nat
  localized_message : Option LocalizedMessage
deriving DecidableEq

/-- `FieldViolation::new`: builds a violation from a field path and a
description, defaulting `reason` to empty and `localized_message` to
absent. -/
def FieldViolation.new (f d : List Nat) : FieldViolation :=
  { field := f, description := d, reason := [], localized_message := none }

/-- The typed `BadRequest` struct: an ordered sequence of field
violations. -/
structure BadRequest where
  field_violations : List FieldViolation
deriving DecidableEq

/-- Modelled from the spec: the conversion from `pb::LocalizedMessage`
into the typed `LocalizedMessage` invoked through
`value.localized_message.map(Into::into)`: a field-for-field copy. -/
def lmFromPb (m : PbLocalizedMessage) : LocalizedMessage :=
  { locale := m.locale, message := m.message }

/-- The impl `From<pb::bad_request::FieldViolation> for FieldViolation`:
copies `field`, `description` and `reason` and maps the optional localized
message, restoring all four fields from the wire struct. -/
def fieldViolationFromPb (w : PbFieldViolation) : FieldViolation :=
  { field := w.field
    description := w.description
    reason := w.reason
    localized_message := w.localized_message.map lmFromPb }

/-- The impl `From<FieldViolation> for pb::bad_request::FieldViolation`:
copies `field` and `description` and leaves the remaining wire fields at
their defaults (`..Default::default()`). -/
def fieldViolationToPb (v : FieldViolation) : PbFieldViolation :=
  { field := v.field
    description := v.description
    reason := []
    localized_message := none }

/-- The impl `From<pb::BadRequest> for BadRequest`: maps every wire
violation back into a typed violation, in order. -/
def badRequestFromPb (m : PbBadRequest) : BadRequest :=
  { field_violations := m.field_violations.map fieldViolationFromPb }

/-- The impl `From<BadRequest> for pb::BadRequest`: maps every typed
violation into its wire counterpart, in order. -/
def badRequestToPb (b : BadRequest) : PbBadRequest :=
  { field_violations := b.field_violations.map fieldViolationToPb }

/-- Modelled from the spec: the generic envelope type
(`prost_types::Any`): a type identifier string and an opaque byte
payload. -/
structure PbAny where
  type_url : String
  value : List Nat
deriving DecidableEq

/-- `BadRequest::TYPE_URL`: the registered type identifier of the
BadRequest standard error message. -/
def BadRequest.TYPE_URL : String := "type.googleapis.com/google.rpc.BadRequest"

/-- `BadRequest::new`: wraps an already-built sequence of violations. -/
def BadRequest.new (vs : List FieldViolation) : BadRequest :=
  { field_violations := vs }

/-- `BadRequest::with_violation`: a single-violation detail with `reason`
empty and `localized_message` absent. -/
def BadRequest.with_violation (f d : List Nat) : BadRequest :=
  { field_violations :=
      [{ field := f, description := d, reason := [], localized_message := none }] }

/-- `BadRequest::add_violation`: appends one defaulted violation to the
sequence (the Rust method mutates in place and returns `&mut self`; it is
modelled as returning the updated value). -/
def BadRequest.add_violation (b : BadRequest) (f d : List Nat) : BadRequest :=
  { field_violations :=
      b.field_violations ++
        [{ field := f, description := d, reason := [], localized_message := none }] }

/-- `BadRequest::is_empty`: whether the violation sequence is empty. -/
def BadRequest.is_empty (b : BadRequest) : Bool :=
  b.field_violations.isEmpty

/-- The impl `IntoAny for BadRequest`: converts into the wire struct,
serializes it, and stamps the registered type identifier onto the
envelope. -/
def BadRequest.into_any (b : BadRequest) : PbAny :=
  { type_url := BadRequest.TYPE_URL
    value := encodeBR (badRequestToPb b) }

/-- The impl `FromAnyRef for BadRequest`: decodes the envelope payload as
the BadRequest wire struct and converts it into the typed struct. -/
def BadRequest.from_any_ref (a : PbAny) : Except String BadRequest :=
  match decodeBR a.value with
  | .error e => .error e
  | .ok m => .ok (badRequestFromPb m)

/-- The impl `FromAny for BadRequest`: delegates to `from_any_ref`. -/
def BadRequest.from_any (a : PbAny) : Except String BadRequest :=
  BadRequest.from_any_ref a

/-- Encoding then decoding yields the original value with each violation
sent through the asymmetric wire mapping: `field` and `description` kept,
`reason` reset to empty and `localized_message` to absent. -/
theorem from_any_into_any (b : BadRequest) :
    BadRequest.from_any (BadRequest.into_any b) =
      .ok { field_violations :=
              b.field_violations.map fun v =>
                { field := v.field, description := v.description,
                  reason := [], localized_message := none } } := by
  have hv : ∀ v : FieldViolation,
      fieldViolationFromPb (fieldViolationToPb v) =
        { field := v.field, description := v.description,
          reason := [], localized_message := none } := fun v => rfl
  simp only [BadRequest.from_any, BadRequest.from_any_ref, BadRequest.into_any,
    decode_encodeBR, badRequestFromPb, badRequestToPb, List.map_map,
    Function.comp, hv]
  rfl

theorem map_strip_eq_self (l : List FieldViolation)
    (h : ∀ v ∈ l, v.reason = [] ∧ v.localized_message = none) :
    (l.map fun v =>
        ({ field := v.field, description := v.description,
           reason := [], localized_message := none } : FieldViolation)) = l := by
  induction l with
  | nil => rfl
  | cons v tl ih =>
    obtain ⟨f, d, r, lm⟩ := v
    obtain ⟨h1, h2⟩ := h _ (List.mem_cons_self _ _)
    simp only at h1 h2
    subst h1
    subst h2
    simp only [List.map_cons, ih (fun w hw => h w (List.mem_cons_of_mem _ hw))]

/-- Claim C1: for every BadRequest whose violations all carry an empty
reason and no localized message, decoding the envelope produced by
encoding it succeeds and returns a structurally equal BadRequest, with the
same violations in the same order. -/
theorem c1_roundtrip_restricted (b : BadRequest)
    (h : ∀ v ∈ b.field_violations, v.reason = [] ∧ v.localized_message = none) :
    BadRequest.from_any (BadRequest.into_any b) = .ok b := by
  rw [from_any_into_any b]
  obtain ⟨vs⟩ := b
  simp only at h
  rw [map_strip_eq_self vs h]

theorem c1_witness :
    BadRequest.from_any (BadRequest.into_any
      { field_violations :=
          [{ field := [102], description := [100], reason := [], localized_message := none },
           { field := [102], description := [100], reason := [], localized_message := none }] }) =
      .ok { field_violations :=
          [{ field := [102], description := [100], reason := [], localized_message := none },
           { field := [102], description := [100], reason := [], localized_message := none }] } :=
  c1_roundtrip_restricted _ (by decide)

/-- Claim C2: the two field mappings are asymmetric: the encode-direction
conversion copies only field and description, leaving the wire reason at
its default and the wire localized message absent whatever the input held,
while the decode-direction conversion restores all four fields from the
wire struct. -/
theorem c2_asymmetric_mapping :
    (∀ v : FieldViolation,
        fieldViolationToPb v =
          { field := v.field, description := v.description,
            reason := [], localized_message := none }) ∧
    (∀ w : PbFieldViolation,
        fieldViolationFromPb w =
          { field := w.field, description := w.description,
            reason := w.reason,
            localized_message := w.localized_message.map lmFromPb }) :=
  ⟨fun _ => rfl, fun _ => rfl⟩

/-- Claim C3: when the payload of an envelope is not a valid wire-schema
encoding of the BadRequest message (the wire decode does not succeed on
it), from_any_ref returns a decode error; being a total function it
neither panics nor returns a value, in particular not a default one. -/
theorem c3_invalid_payload_errors (a : PbAny)
    (h : exceptIsOk (decodeBR a.value) = false) :
    ∃ e, BadRequest.from_any_ref a = .error e := by
  rcases hd : decodeBR a.value with e | m
  · exact ⟨e, by simp [BadRequest.from_any_ref, hd]⟩
  · rw [hd] at h
    simp [exceptIsOk] at h

theorem c3_witness :
    ∃ e, BadRequest.from_any_ref
      { type_url := BadRequest.TYPE_URL, value := [1] } = .error e :=
  c3_invalid_payload_errors _ (by decide)

/-- Claim C4: the registered type identifier is exactly the string
"type.googleapis.com/google.rpc.BadRequest" and every envelope produced
by into_any carries exactly that string. -/
theorem c4_type_identifier :
    BadRequest.TYPE_URL = "type.googleapis.com/google.rpc.BadRequest" ∧
    ∀ b : BadRequest,
      (BadRequest.into_any b).type_url =
        "type.googleapis.com/google.rpc.BadRequest" :=
  ⟨rfl, fun _ => rfl⟩

/-- Claim C5: appending three violations via add_violation and then
encoding and decoding yields exactly those three violations, in that
order, with duplicates preserved, after a prefix of the same length as
the pre-existing violations. -/
theorem c5_order_preserved (b : BadRequest) (f1 d1 f2 d2 f3 d3 : List Nat) :
    ∃ pre : List FieldViolation,
      BadRequest.from_any (BadRequest.into_any
        (((b.add_violation f1 d1).add_violation f2 d2).add_violation f3 d3)) =
        .ok { field_violations :=
                pre ++ [FieldViolation.new f1 d1, FieldViolation.new f2 d2,
                        FieldViolation.new f3 d3] } ∧
      pre.length = b.field_violations.length := by
  refine ⟨b.field_violations.map fun v =>
    ({ field := v.field, description := v.description,
       reason := [], localized_message := none } : FieldViolation), ?_, by simp⟩
  rw [from_any_into_any]
  simp [BadRequest.add_violation, FieldViolation.new, List.append_assoc]

/-- Claim C6: the BadRequest built from no violations is empty according
to is_empty, and encoding then decoding it succeeds and yields an empty
violation sequence rather than an error. -/
theorem c6_empty_roundtrip :
    BadRequest.is_empty (BadRequest.new []) = true ∧
    BadRequest.from_any (BadRequest.into_any (BadRequest.new [])) =
      .ok (BadRequest.new []) :=
  ⟨rfl, rfl⟩

/-- Claim C7: is_empty returns true exactly when the violation sequence
has zero elements. -/
theorem c7_is_empty_iff (b : BadRequest) :
    BadRequest.is_empty b = true ↔ b.field_violations = [] := by
  cases hb : b.field_violations <;> simp [BadRequest.is_empty, hb]

/-- Claim C8: encoding is total: every BadRequest is sent to an envelope
carrying the registered identifier and the wire encoding of the value,
with no error path, and that payload even decodes successfully. -/
theorem c8_encode_total (b : BadRequest) :
    BadRequest.into_any b =
      { type_url := BadRequest.TYPE_URL, value := encodeBR (badRequestToPb b) } ∧
    exceptIsOk (decodeBR (BadRequest.into_any b).value) = true := by
  refine ⟨rfl, ?_⟩
  simp [BadRequest.into_any, decode_encodeBR, exceptIsOk]

/-- Claim C9: decoding ignores the envelope type identifier: two
envelopes with equal payload bytes decode to the same result, and a
payload on which the wire decode succeeds decodes successfully whatever
the type_url says. -/
theorem c9_type_url_ignored (a1 a2 : PbAny) (h : a1.value = a2.value) :
    BadRequest.from_any_ref a1 = BadRequest.from_any_ref a2 ∧
    (exceptIsOk (decodeBR a1.value) = true →
      exceptIsOk (BadRequest.from_any_ref a1) = true) := by
  constructor
  · simp [BadRequest.from_any_ref, h]
  · intro hok
    rcases hd : decodeBR a1.value with e | m
    · rw [hd] at hok
      simp [exceptIsOk] at hok
    · simp [BadRequest.from_any_ref, hd, exceptIsOk]

theorem c9_witness :
    (BadRequest.from_any_ref
        { type_url := "type.googleapis.com/other.Message", value := [10, 0] } =
      BadRequest.from_any_ref
        { type_url := BadRequest.TYPE_URL, value := [10, 0] }) ∧
    (exceptIsOk (decodeBR
        (({ type_url := "type.googleapis.com/other.Message", value := [10, 0] } : PbAny).value)) = true →
      exceptIsOk (BadRequest.from_any_ref
        { type_url := "type.googleapis.com/other.Message", value := [10, 0] }) = true) :=
  c9_type_url_ignored _ _ rfl

/-- Claim C10: decoding by value delegates to decoding by reference, so
the two agree, success value or error, on every envelope. -/
theorem c10_from_any_agrees (a : PbAny) :
    BadRequest.from_any a = BadRequest.from_any_ref a := rfl

end TonicBadRequest
